import Mathlib

/-!
Shallow embedding of the capmeter firmware (`capmeter.ino`): the compiled-in
range table, the capacitance estimate and zero-calibration logic of
`print_cap`, the single-step auto-range policy `rerange` (the default
`QUICK_RANGE == 0` branch), the per-cycle body of `loop`, and the two
timer-1 interrupt handlers that latch the cycle result.

Machine integers are modelled as `ℕ` (the firmware's `uint16_t` counter
values are constrained by hypotheses `t ≤ 65535` where relevant) and the
`float` arithmetic of the estimator as exact rational arithmetic over `ℚ`.
-/

namespace Capmeter

/-- One row of the compiled-in range table (the anonymous `struct` of
`ranges` in the source): resistor value, timer-1 prescale factor, CS bits,
PORTF pin mask, the ICR threshold `min` below which the range should grow,
and the growth factor used only by the disabled quick-range variant. -/
structure Range where
  R : ℚ
  prescale : ℕ
  CS : ℕ
  pin_mask : ℕ
  min : ℕ
  grow : ℕ
deriving DecidableEq

/-- The nine-entry constant range table from the source. -/
def ranges : List Range := [
  ⟨270, 1024, 5, 1, 16384, 4⟩,
  ⟨270, 256, 4, 1, 16384, 4⟩,
  ⟨270, 64, 3, 1, 8192, 8⟩,
  ⟨270, 8, 2, 1, 8192, 8⟩,
  ⟨270, 1, 1, 1, 14156, 5⟩,
  ⟨10000, 8, 2, 2, 8192, 8⟩,
  ⟨10000, 1, 1, 2, 5243, 13⟩,
  ⟨1000000, 8, 2, 4, 8192, 8⟩,
  ⟨1000000, 1, 1, 4, 0, 255⟩]

/-- `n_ranges = sizeof(ranges)/sizeof(*ranges)` in the source. -/
def n_ranges : ℕ := ranges.length

/-- `ranges[i]` (indices used by the firmware always stay in bounds). -/
def rangeAt (i : ℕ) : Range := ranges.getD i ⟨0, 0, 0, 0, 0, 0⟩

/-- The 16-bit full-scale count `0xFFFF`, used as the overflow sentinel. -/
def fullScale : ℕ := 0xFFFF

/-- CPU clock frequency of the target board: 16 MHz. -/
def F_CPU : ℚ := 16000000

/-- The literal `1.514128` (`ln(5/1.1)`) from `print_cap`. -/
def taus : ℚ := 1514128 / 1000000

/-- The parasitic-capacitance ceiling `100e-12` from `print_cap`. -/
def parasitic : ℚ := 100 / 10 ^ 12

/-- The capacitance computation at the top of `print_cap`:
`f = F_CPU/prescale`, `t = timer/f`, `C = t/taus/R`. -/
def estCap (i : ℕ) (timer : ℕ) : ℚ :=
  (timer : ℚ) / (F_CPU / ((rangeAt i).prescale : ℚ)) / taus / (rangeAt i).R

/-- The estimator written the way the specification states it:
`(count · divider / clockFreq) / τ_fall / resistance`. -/
def estGen (count divider resistance : ℚ) : ℚ :=
  count * divider / F_CPU / taus / resistance

/-- The mutable engine state: active range index `r_index`, and the
zero-calibration pair `zeroed`/`zerocap`.  `zerocap` is uninitialized in
the source and only ever read after being written; it is modelled as 0. -/
structure EngState where
  r_index : ℕ
  zeroed : Bool
  zerocap : ℚ
deriving DecidableEq

/-- What one `print_cap` call sends to the serial sink: the `'>'` or `'='`
marker, the capacitance value passed to `print_si`, and the range index
printed by the `VERBOSE` block. -/
structure Report where
  marker : Char
  shown : ℚ
  verbose_index : ℕ
deriving DecidableEq

/-- `print_cap(timer)`: computes the raw estimate, establishes the zero
calibration the first time the last range yields a raw value below the
parasitic ceiling, subtracts the offset (floored at 0) once established,
and emits `'>'` for the overflow sentinel and `'='` otherwise. -/
def print_cap (s : EngState) (timer : ℕ) : EngState × Report :=
  let C0 := estCap s.r_index timer
  let establish : Bool :=
    !s.zeroed && (decide (s.r_index = n_ranges - 1) && decide (C0 < parasitic))
  let zeroed := s.zeroed || establish
  let zerocap := if establish then C0 else s.zerocap
  let C := if zeroed then (if C0 - zerocap < 0 then 0 else C0 - zerocap) else C0
  let marker := if timer = fullScale then '>' else '='
  (⟨s.r_index, zeroed, zerocap⟩, ⟨marker, C, s.r_index⟩)

/-- The default (`QUICK_RANGE == 0`) auto-range policy `rerange(timer)`. -/
def rerange (r_index timer : ℕ) : ℕ :=
  if timer = fullScale then
    if r_index > 0 then r_index - 1 else r_index
  else
    if timer < (rangeAt r_index).min then r_index + 1 else r_index

/-- One iteration of the body of `loop`: the latched `timer` value is
reported via `print_cap` and then fed to `rerange`. -/
def step (s : EngState) (timer : ℕ) : EngState × Report :=
  let pr := print_cap s timer
  (⟨rerange pr.1.r_index timer, pr.1.zeroed, pr.1.zerocap⟩, pr.2)

/-- Iterating `step` over a list of per-cycle latched counter values. -/
def run (s : EngState) (l : List ℕ) : EngState :=
  l.foldl (fun a t => (step a t).1) s

/-- The boot state: `r_index = 4`, not zeroed. -/
def boot : EngState := ⟨4, false, 0⟩

/-- `TIMER1_CAPT_vect`: latches `ICR1` as the cycle result. -/
def isr_capt (icr1 : ℕ) : ℕ := icr1

/-- `TIMER1_OVF_vect`: latches the sentinel `0xFFFF` as the cycle result. -/
def isr_ovf : ℕ := 0xFFFF

example : estCap 3 10000 = 125 / 10220364 := by
  norm_num [estCap, rangeAt, ranges, F_CPU, taus]

example : rerange 4 65535 = 3 := by decide
example : rerange 0 65535 = 0 := by decide
example : rerange 4 20000 = 4 := by decide
example : rerange 4 14155 = 5 := by decide

/-- C2: the default single-step auto-range policy: on the overflow sentinel
with a non-lowest index it decrements by exactly one; on a captured count
below the active range's `min` threshold it increments by exactly one; in
every other case it leaves the index unchanged. -/
theorem rerange_single_step (i t : ℕ) (hi : i < n_ranges) (ht : t ≤ fullScale) :
    (t = fullScale → 0 < i → rerange i t = i - 1) ∧
    (t = fullScale → i = 0 → rerange i t = i) ∧
    (t ≠ fullScale → t < (rangeAt i).min → rerange i t = i + 1) ∧
    (t ≠ fullScale → ¬ t < (rangeAt i).min → rerange i t = i) := by
  refine ⟨fun hov hpos => ?_, fun hov h0 => ?_, fun hc hlt => ?_, fun hc hge => ?_⟩
  · simp [rerange, hov, hpos]
  · simp [rerange, hov, h0]
  · simp [rerange, hc, hlt]
  · simp [rerange, hc, hge]

/-- Witness for C2 at concrete inputs in each branch. -/
theorem rerange_single_step_witness :
    rerange 4 65535 = 3 ∧ rerange 0 65535 = 0 ∧
    rerange 4 14155 = 5 ∧ rerange 4 20000 = 4 := by
  have h4 : (4 : ℕ) < n_ranges := by decide
  have h0 : (0 : ℕ) < n_ranges := by decide
  refine ⟨(rerange_single_step 4 65535 h4 (by decide)).1 rfl (by decide),
    (rerange_single_step 0 65535 h0 (by decide)).2.1 rfl rfl,
    (rerange_single_step 4 14155 h4 (by decide)).2.2.1 (by decide) (by decide),
    (rerange_single_step 4 20000 h4 (by decide)).2.2.2 (by decide) (by decide)⟩

/-- C3: for every in-bounds range index and every 16-bit cycle result, the
index chosen by `rerange` stays within `0 .. n_ranges - 1`: the decrement is
guarded by `r_index > 0` and an increment can never fire at the last index
(its `min` threshold is 0). -/
theorem rerange_in_bounds (i t : ℕ) (hi : i < n_ranges) (ht : t ≤ fullScale) :
    rerange i t < n_ranges := by
  have hn : n_ranges = 9 := by decide
  rw [hn] at hi ⊢
  unfold rerange
  by_cases hov : t = fullScale
  · rw [if_pos hov]
    split <;> omega
  · rw [if_neg hov]
    split
    · rename_i hlt
      have h8 : i ≠ 8 := by
        intro h
        rw [h] at hlt
        have hm : (rangeAt 8).min = 0 := by decide
        omega
      omega
    · omega

/-- Witness for C3: at the last index a small captured count does not push
the index out of the table. -/
theorem rerange_in_bounds_witness : rerange 8 3000 < n_ranges :=
  rerange_in_bounds 8 3000 (by decide) (by decide)

/-- C6: under an unbroken sequence of overflow cycles the engine's range
index decreases by exactly one per cycle until it reaches 0 and stays 0
afterwards (the value after `k` such cycles is the truncated difference
`r_index - k`), and every such cycle is still reported with the `'>'`
out-of-range marker; `step` is total, so the engine never halts. -/
theorem overflow_saturates (s : EngState) (k : ℕ) :
    (run s (List.replicate k fullScale)).r_index = s.r_index - k ∧
    (step s fullScale).2.marker = '>' := by
  constructor
  · induction k generalizing s with
    | zero => simp [run]
    | succ n ih =>
        rw [List.replicate_succ]
        have hstep : ((step s fullScale).1).r_index = s.r_index - 1 := by
          show rerange s.r_index fullScale = s.r_index - 1
          unfold rerange
          rw [if_pos rfl]
          split <;> omega
        calc (run s (fullScale :: List.replicate n fullScale)).r_index
            = (run (step s fullScale).1 (List.replicate n fullScale)).r_index := rfl
          _ = ((step s fullScale).1).r_index - n := ih _
          _ = s.r_index - (n + 1) := by omega
  · simp [step, print_cap]

/-- C7: a captured count that lies in the window
`min ≤ count < fullScale` leaves the range index unchanged. -/
theorem rerange_idempotent_at_optimum (i t : ℕ)
    (hmin : (rangeAt i).min ≤ t) (hfs : t < fullScale) :
    rerange i t = i := by
  unfold rerange
  rw [if_neg (by omega), if_neg (by omega)]

/-- Witness for C7 at a concrete in-window count. -/
theorem rerange_idempotent_at_optimum_witness : rerange 4 20000 = 4 :=
  rerange_idempotent_at_optimum 4 20000 (by decide) (by decide)

/-- C9: the overflow condition is encoded as the sentinel count `0xFFFF`:
a capture interrupt that latches `ICR1 = 65535` produces exactly the same
latched value as the overflow interrupt, a cycle is reported with the `'>'`
out-of-range marker if and only if the latched count is 65535, and the
sentinel triggers the decrement branch of the policy (rather than the
captured-count branch). -/
theorem overflow_sentinel_ambiguity :
    isr_capt 65535 = isr_ovf ∧
    (∀ (s : EngState) (t : ℕ), t ≤ fullScale →
      ((print_cap s t).2.marker = '>' ↔ t = fullScale)) ∧
    (∀ i : ℕ, 0 < i → rerange i 65535 = i - 1) ∧ rerange 0 65535 = 0 := by
  refine ⟨rfl, fun s t ht => ?_, fun i hi => ?_, by decide⟩
  · constructor
    · intro hm
      by_contra hne
      simp [print_cap, hne] at hm
    · intro he; simp [print_cap, he]
  · unfold rerange fullScale
    rw [if_pos rfl, if_pos hi]

/-- Witness for C9: the boot state reports `'>'` exactly at the sentinel,
and the sentinel decrements the boot index. -/
theorem overflow_sentinel_ambiguity_witness :
    ((print_cap boot 65535).2.marker = '>' ↔ 65535 = fullScale) ∧
    rerange 4 65535 = 3 :=
  ⟨overflow_sentinel_ambiguity.2.1 boot 65535 (by decide),
    overflow_sentinel_ambiguity.2.2.1 4 (by decide)⟩

lemma estCap_eq_mul (i c : ℕ) :
    estCap i c = (c : ℚ) * (((rangeAt i).prescale : ℚ) / F_CPU / taus / (rangeAt i).R) := by
  unfold estCap
  rw [div_div_eq_mul_div]
  ring

/-- C5 counterexample: the estimate at `count = 10000` in the
`divider = 8, R = 270` range is not ≈ 1.22e-7 F: it exceeds 1.2e-5 F. -/
theorem estimate_fixture_counterexample :
    ¬ estCap 3 10000 < 2 / 10 ^ 7 ∧
      (12 : ℚ) / 10 ^ 6 < estCap 3 10000 ∧ estCap 3 10000 < (13 : ℚ) / 10 ^ 6 := by
  norm_num [estCap, rangeAt, ranges, F_CPU, taus]

/-- C5 amended: the estimate is the pure, stateless function
`(count · divider / clockFreq) / τ_fall / resistance` with
`τ_fall = 1.514128` and `clockFreq = 16 MHz`; the fixture
`estimate(count = 10000, divider = 8, resistance = 270)` evaluates to
exactly `125/10220364` F ≈ 1.22e-5 F (12.2 µF). -/
theorem estimate_matches_spec_formula :
    (∀ i c : ℕ, estCap i c = estGen c ((rangeAt i).prescale : ℚ) (rangeAt i).R) ∧
    estCap 3 10000 = 125 / 10220364 ∧
    (12 : ℚ) / 10 ^ 6 < estCap 3 10000 ∧ estCap 3 10000 < (13 : ℚ) / 10 ^ 6 := by
  refine ⟨fun i c => ?_, by norm_num [estCap, rangeAt, ranges, F_CPU, taus],
    by norm_num [estCap, rangeAt, ranges, F_CPU, taus],
    by norm_num [estCap, rangeAt, ranges, F_CPU, taus]⟩
  unfold estCap estGen
  rw [div_div_eq_mul_div]

/-- C8: the estimate is monotone (non-decreasing) in the count for each
fixed range entry, and antitone (non-increasing) in the resistance for a
fixed non-negative count and divider. -/
theorem estimate_monotone (i c1 c2 : ℕ) (hi : i < n_ranges) (hc : c1 ≤ c2)
    (cnt d R1 R2 : ℚ) (hcnt : 0 ≤ cnt) (hd : 0 ≤ d) (hR1 : 0 < R1) (hRR : R1 ≤ R2) :
    estCap i c1 ≤ estCap i c2 ∧ estGen cnt d R2 ≤ estGen cnt d R1 := by
  constructor
  · rw [estCap_eq_mul, estCap_eq_mul]
    have hc' : (c1 : ℚ) ≤ (c2 : ℚ) := by exact_mod_cast hc
    have hn : n_ranges = 9 := by decide
    rw [hn] at hi
    have hk : 0 ≤ ((rangeAt i).prescale : ℚ) / F_CPU / taus / (rangeAt i).R := by
      interval_cases i <;> norm_num [rangeAt, ranges, F_CPU, taus]
    exact mul_le_mul_of_nonneg_right hc' hk
  · unfold estGen
    have hF : (0 : ℚ) < F_CPU := by norm_num [F_CPU]
    have htau : (0 : ℚ) < taus := by norm_num [taus]
    have h0 : 0 ≤ cnt * d / F_CPU / taus :=
      div_nonneg (div_nonneg (mul_nonneg hcnt hd) hF.le) htau.le
    exact div_le_div_of_nonneg_left h0 hR1 hRR

/-- Witness for C8: count 100 ≤ 200 at range 3, and resistances 270 ≤ 10000
for count 10000, divider 8. -/
theorem estimate_monotone_witness :
    estCap 3 100 ≤ estCap 3 200 ∧ estGen 10000 8 10000 ≤ estGen 10000 8 270 :=
  estimate_monotone 3 100 200 (by decide) (by decide)
    10000 8 270 10000 (by norm_num) (by norm_num) (by norm_num) (by norm_num)

/-- C10: at the last table entry (`R = 1e6`, `prescale = 1`) the raw
estimate of the overflow sentinel 65535 is ≈ 2.7e-9 F, which is at least
the 100 pF parasitic ceiling, so an overflow cycle can never establish the
zero calibration; the establishing condition `estimate < 100 pF` holds at
the last range exactly for counts below 2423. -/
theorem overflow_never_zeroes (s : EngState) (hz : s.zeroed = false)
    (hlast : s.r_index = n_ranges - 1) :
    parasitic ≤ estCap (n_ranges - 1) 65535 ∧
    (27 : ℚ) / 10 ^ 10 < estCap (n_ranges - 1) 65535 ∧
      estCap (n_ranges - 1) 65535 < (28 : ℚ) / 10 ^ 10 ∧
    (step s 0xFFFF).1.zeroed = false ∧
    (∀ c : ℕ, estCap (n_ranges - 1) c < parasitic ↔ c < 2423) := by
  have hn : n_ranges = 9 := by decide
  have hiff : ∀ c : ℕ, estCap (n_ranges - 1) c < parasitic ↔ c < 2423 := by
    intro c
    rw [hn]
    show (c : ℚ) / (F_CPU / ((rangeAt 8).prescale : ℚ)) / taus / (rangeAt 8).R
        < parasitic ↔ c < 2423
    rw [show ((rangeAt 8).prescale : ℚ) = 1 from by norm_num [rangeAt, ranges],
      show (rangeAt 8).R = 1000000 from by norm_num [rangeAt, ranges]]
    unfold F_CPU taus parasitic
    rw [div_lt_iff (by norm_num), div_lt_iff (by norm_num), div_lt_iff (by norm_num)]
    constructor
    · intro h
      have hq : (c : ℚ) < 2423 := by linarith
      exact_mod_cast hq
    · intro h
      have hq : (c : ℚ) ≤ 2422 := by
        have h22 : c ≤ 2422 := by omega
        exact_mod_cast h22
      linarith
  refine ⟨?_, by rw [hn]; norm_num [estCap, rangeAt, ranges, F_CPU, taus],
    by rw [hn]; norm_num [estCap, rangeAt, ranges, F_CPU, taus], ?_, hiff⟩
  · have := (hiff 65535).not
    rw [not_lt] at this
    exact this.mpr (by omega)
  · have hbig : ¬ estCap s.r_index 0xFFFF < parasitic := by
      rw [hlast, not_lt]
      have := (hiff 65535).not
      rw [not_lt] at this
      exact this.mpr (by omega)
    simp only [step, print_cap, hz, hbig]
    simp

/-- Witness for C10 at the concrete un-zeroed state sitting at the last
range. -/
theorem overflow_never_zeroes_witness :
    (step ⟨n_ranges - 1, false, 0⟩ 0xFFFF).1.zeroed = false ∧
    (estCap (n_ranges - 1) 2422 < parasitic ↔ 2422 < 2423) ∧
    (estCap (n_ranges - 1) 2423 < parasitic ↔ 2423 < 2423) :=
  ⟨(overflow_never_zeroes ⟨n_ranges - 1, false, 0⟩ rfl rfl).2.2.2.1,
    (overflow_never_zeroes ⟨n_ranges - 1, false, 0⟩ rfl rfl).2.2.2.2 2422,
    (overflow_never_zeroes ⟨n_ranges - 1, false, 0⟩ rfl rfl).2.2.2.2 2423⟩

lemma ite_neg_zero_eq_max (x : ℚ) : (if x < 0 then 0 else x) = max 0 x := by
  split
  · exact (max_eq_left (le_of_lt ‹_›)).symm
  · exact (max_eq_right (not_lt.mp ‹_›)).symm

lemma ite_lt_eq_max (a b : ℚ) : (if a < b then 0 else a - b) = max 0 (a - b) := by
  split
  · rename_i h
    exact (max_eq_left (by linarith)).symm
  · rename_i h
    exact (max_eq_right (by linarith)).symm

lemma step_preserves_zeroed (s : EngState) (t : ℕ) (h : s.zeroed = true) :
    (step s t).1.zeroed = true ∧ (step s t).1.zerocap = s.zerocap := by
  simp [step, print_cap, h]

lemma run_preserves_zeroed (s : EngState) (l : List ℕ) (h : s.zeroed = true) :
    (run s l).zeroed = true ∧ (run s l).zerocap = s.zerocap := by
  induction l generalizing s with
  | nil => exact ⟨h, rfl⟩
  | cons t rest ih =>
      have hs := step_preserves_zeroed s t h
      have := ih (step s t).1 hs.1
      exact ⟨this.1, this.2.trans hs.2⟩

/-- C1 counterexample: at the boot state, the overflow sentinel 65535 is
passed straight through the estimator and the resulting positive numeric
capacitance is printed after the `'>'` marker — overflow is not reported
"never as a numeric capacitance value". -/
theorem overflow_reports_numeric_counterexample :
    (print_cap boot 65535).2.marker = '>' ∧
    (print_cap boot 65535).2.shown = estCap 4 65535 ∧
    0 < estCap 4 65535 := by
  refine ⟨by simp [print_cap, boot, fullScale], by simp [print_cap, boot, n_ranges, ranges], ?_⟩
  norm_num [estCap, rangeAt, ranges, F_CPU, taus]

/-- C1 amended: an overflow cycle is reported with the `'>'` out-of-range
marker together with the active range index, but the full-scale count IS
passed to the estimator: the report also carries the numeric (possibly
zero-adjusted) estimate of the full-scale count as a range-ceiling value. -/
theorem overflow_report (s : EngState) (t : ℕ) (hov : t = fullScale) :
    (print_cap s t).2.marker = '>' ∧
    (print_cap s t).2.verbose_index = s.r_index ∧
    (print_cap s t).2.shown =
      (if (print_cap s t).1.zeroed = true
        then max 0 (estCap s.r_index fullScale - (print_cap s t).1.zerocap)
        else estCap s.r_index fullScale) := by
  subst hov
  refine ⟨by simp [print_cap], rfl, ?_⟩
  show (if (s.zeroed || _) = true
      then (if estCap s.r_index fullScale - _ < 0 then 0
            else estCap s.r_index fullScale - _)
      else estCap s.r_index fullScale) = _
  split
  · rename_i hz
    rw [ite_neg_zero_eq_max]
    rw [show (print_cap s fullScale).1.zeroed = true from hz, if_pos rfl]
    rfl
  · rename_i hz
    rw [show (print_cap s fullScale).1.zeroed = (s.zeroed || _) from rfl,
      if_neg (by simpa using hz)]

/-- Witness for C1's amended theorem at the boot state. -/
theorem overflow_report_witness :
    (print_cap boot 65535).2.marker = '>' ∧
    (print_cap boot 65535).2.verbose_index = boot.r_index :=
  ⟨(overflow_report boot 65535 rfl).1, (overflow_report boot 65535 rfl).2.1⟩

/-- C4: zero calibration is set at most once per boot and reported values
are floored at zero afterwards: (a) once `zeroed` holds, any further run
leaves both `zeroed` and the offset `zerocap` unchanged; (b) from an
un-zeroed state a cycle establishes calibration exactly when the active
range is the last table entry and the raw estimate is below the 100 pF
ceiling, and the raw estimate then becomes the offset; (c) once zeroed,
every report shows `max 0 (raw - offset)`, which is never negative. -/
theorem zero_calibration (s : EngState) (t : ℕ) :
    (s.zeroed = true → ∀ l : List ℕ,
      (run s l).zeroed = true ∧ (run s l).zerocap = s.zerocap) ∧
    (s.zeroed = false →
      (((step s t).1.zeroed = true) ↔
        s.r_index = n_ranges - 1 ∧ estCap s.r_index t < parasitic) ∧
      ((step s t).1.zeroed = true → (step s t).1.zerocap = estCap s.r_index t)) ∧
    (s.zeroed = true →
      (step s t).2.shown = max 0 (estCap s.r_index t - s.zerocap) ∧
      0 ≤ (step s t).2.shown) := by
  refine ⟨fun h l => run_preserves_zeroed s l h, fun h => ⟨?_, ?_⟩, fun h => ⟨?_, ?_⟩⟩
  · simp [step, print_cap, h]
  · intro hz
    simp only [step, print_cap, h] at hz ⊢
    simp at hz
    simp [hz]
    intro hge
    exact absurd (hz.1 ▸ hz.2) (not_lt.mpr hge)
  · simp [step, print_cap, h, ite_lt_eq_max]
  · simp [step, print_cap, h, ite_lt_eq_max]

/-- Witness for C4: calibration is established at the last range with a
zero count; a zeroed state keeps its offset over a further run; and a
zeroed state's reports are non-negative. -/
theorem zero_calibration_witness :
    ((step ⟨8, false, 0⟩ 0).1.zeroed = true ↔
      (8 : ℕ) = n_ranges - 1 ∧ estCap 8 0 < parasitic) ∧
    (run ⟨4, true, 1 / 10 ^ 11⟩ [65535, 0]).zerocap = 1 / 10 ^ 11 ∧
    0 ≤ (step ⟨4, true, 1 / 10 ^ 11⟩ 123).2.shown :=
  ⟨((zero_calibration ⟨8, false, 0⟩ 0).2.1 rfl).1,
   ((zero_calibration ⟨4, true, 1 / 10 ^ 11⟩ 0).1 rfl [65535, 0]).2,
   ((zero_calibration ⟨4, true, 1 / 10 ^ 11⟩ 123).2.2 rfl).2⟩

end Capmeter
